import Mathlib

/-!
Verification development for a directory retention daemon (`main.py`).

The program continuously scans a watched directory tree, tracks discovered
files in an in-memory index (`Storage`: a priority queue keyed by the file's
born date expressed as days since 1970-01-01, paired with a set of tracked
paths), and evicts the oldest tracked files (compress + delete) while an age
threshold and a free-space threshold both hold.

The embedding below translates:
  * the date arithmetic performed by `datetime.date` subtraction against
    `date(1970, 1, 1)` (proleptic Gregorian ordinals, as in CPython's
    `datetime` module);
  * the birth-date parsing in `update` (`os.path.normpath(p).split(os.sep)`
    followed by `int(...)` of the segments at positions -4, -3, -2 and
    `datetime.date(...)` construction);
  * the `Storage` class (priority queue modelled by its contract: `put_nowait`
    appends, `get_nowait` removes an element of minimal priority; the heap's
    tie-break among equal priorities is unspecified and the model picks the
    first such element), with Python `set.add` / `set.remove` semantics,
    including the `KeyError` that `set.remove` raises on a missing element;
  * the scanner `update` (a `collections.deque` used with `appendleft`/`pop`)
    over a static filesystem tree;
  * the evictor `clear`, with the external outcomes of `shutil.disk_usage`
    comparisons and of the mkdir/zip/remove block abstracted as per-iteration
    oracles.
-/

/-! ## Date codec: CPython `datetime.date` ordinal arithmetic -/

/-- Python `datetime.MINYEAR..MAXYEAR` leap-year rule. -/
def isLeap (y : Nat) : Bool :=
  y % 4 == 0 && (y % 100 != 0 || y % 400 == 0)

/-- CPython `_days_in_month` (value for months outside 1..12 is irrelevant,
the constructor validates the month first). -/
def daysInMonth (y m : Nat) : Nat :=
  match m with
  | 1 => 31
  | 2 => if isLeap y then 29 else 28
  | 3 => 31
  | 4 => 30
  | 5 => 31
  | 6 => 30
  | 7 => 31
  | 8 => 31
  | 9 => 30
  | 10 => 31
  | 11 => 30
  | 12 => 31
  | _ => 0

/-- CPython `_days_before_month`. -/
def daysBeforeMonth (y m : Nat) : Nat :=
  (match m with
   | 1 => 0
   | 2 => 31
   | 3 => 59
   | 4 => 90
   | 5 => 120
   | 6 => 151
   | 7 => 181
   | 8 => 212
   | 9 => 243
   | 10 => 273
   | 11 => 304
   | 12 => 334
   | _ => 0) +
  (if 2 < m ∧ isLeap y then 1 else 0)

/-- CPython `_days_before_year`: days before January 1st of year `y`. -/
def daysBeforeYear (y : Nat) : Nat :=
  365 * (y - 1) + (y - 1) / 4 - (y - 1) / 100 + (y - 1) / 400

/-- A calendar date as held by a Python `datetime.date` object. -/
structure Date where
  year : Nat
  month : Nat
  day : Nat
deriving DecidableEq, Repr

/-- The range check performed by the `datetime.date` constructor. -/
def Date.Valid (d : Date) : Prop :=
  1 ≤ d.year ∧ d.year ≤ 9999 ∧ 1 ≤ d.month ∧ d.month ≤ 12 ∧
  1 ≤ d.day ∧ d.day ≤ daysInMonth d.year d.month

instance (d : Date) : Decidable d.Valid := by
  unfold Date.Valid; infer_instance

/-- CPython `date.toordinal`: day number in the proleptic Gregorian calendar,
with 0001-01-01 having ordinal 1. -/
def toOrdinal (d : Date) : Nat :=
  daysBeforeYear d.year + daysBeforeMonth d.year d.month + d.day

/-- `(d - datetime.date(1970, 1, 1)).days`: the priority key used by
`Storage.add_file` and the day count used by `clear`. -/
def days_since_epoch (d : Date) : Int :=
  (toOrdinal d : Int) - (toOrdinal ⟨1970, 1, 1⟩ : Int)

/-- Lexicographic (i.e. chronological) order on calendar dates. -/
def DateLt (a b : Date) : Prop :=
  a.year < b.year ∨ (a.year = b.year ∧ a.month < b.month) ∨
  (a.year = b.year ∧ a.month = b.month ∧ a.day < b.day)

instance (a b : Date) : Decidable (DateLt a b) := by
  unfold DateLt; infer_instance

/-- The `datetime.date(y, m, d)` constructor: validates and builds, `none`
models the `ValueError` it raises on an invalid calendar date. -/
def mk_date (y m d : Int) : Option Date :=
  if 1 ≤ y ∧ y ≤ 9999 ∧ 1 ≤ m ∧ m ≤ 12 ∧ 1 ≤ d ∧
     d ≤ (daysInMonth y.toNat m.toNat : Int) then
    some ⟨y.toNat, m.toNat, d.toNat⟩
  else
    none

/-! ## String helpers: `str.split('/')`, `os.path.normpath`, `int(...)` -/

/-- Python `str.split('/')` on a list of characters. -/
def splitCharList : List Char → List (List Char)
  | [] => [[]]
  | c :: rest =>
    let r := splitCharList rest
    if c = '/' then [] :: r
    else
      match r with
      | [] => [[c]]
      | h :: t => (c :: h) :: t

/-- Python `str.split('/')`. -/
def splitSlash (s : String) : List String :=
  (splitCharList s.data).map (fun l => String.mk l)

/-- Python `'/'.join(...)`. -/
def joinSlash : List String → String
  | [] => ""
  | h :: t => t.foldl (fun acc x => acc ++ ("/") ++ x) h

/-- Whether a string starts with the character `c` (`str.startswith` for a
single-character prefix). -/
def startsWithChar (s : String) (c : Char) : Bool :=
  match s.data with
  | [] => false
  | c0 :: _ => c0 = c

/-- The final path component (`os.path.basename` for paths without a trailing
slash). -/
def basename (s : String) : String :=
  (splitSlash s).getLastD ("")

/-- The component-folding step of CPython `posixpath.normpath`. -/
def normComps (initialSlashes : Nat) : List String → List String → List String
  | acc, [] => acc
  | acc, comp :: rest =>
    if comp = "" ∨ comp = "." then normComps initialSlashes acc rest
    else if comp ≠ ".." ∨ (initialSlashes = 0 ∧ acc = []) ∨
            (acc ≠ [] ∧ acc.getLast? = some "..") then
      normComps initialSlashes (acc ++ [comp]) rest
    else if acc ≠ [] then normComps initialSlashes acc.dropLast rest
    else normComps initialSlashes acc rest

/-- CPython `posixpath.normpath` (the `os.path.normpath` used by `update` and
`clear`). -/
def normpath (p : String) : String :=
  if p = "" then "."
  else
    let initialSlashes : Nat :=
      if startsWithChar p '/' then
        match p.data with
        | '/' :: '/' :: '/' :: _ => 1
        | '/' :: '/' :: _ => 2
        | _ => 1
      else 0
    let comps := normComps initialSlashes [] (splitSlash p)
    let res := String.mk (List.replicate initialSlashes '/') ++ joinSlash comps
    if res = "" then "." else res

/-- Value of a nonempty all-digit character list, `none` otherwise. -/
def digitsVal (cs : List Char) : Option Nat :=
  if cs = [] then none
  else
    cs.foldl
      (fun acc c =>
        acc.bind (fun n => if c.isDigit then some (10 * n + (c.toNat - 48)) else none))
      (some 0)

/-- Python `int(s)` restricted to an optional single sign followed by decimal
digits (`none` models the `ValueError` on non-numeric input). -/
def pyInt (s : String) : Option Int :=
  match s.data with
  | '-' :: rest => (digitsVal rest).map (fun n => -(n : Int))
  | '+' :: rest => (digitsVal rest).map (fun n => (n : Int))
  | l => (digitsVal l).map (fun n => (n : Int))

/-- The `i`-th segment from the end (Python `path[-i]`) of
`os.path.normpath(p).split(os.sep)`. -/
def seg (p : String) (i : Nat) : String :=
  let segs := splitSlash (normpath p)
  segs.getD (segs.length - i) ("")

/-- The birth-date parsing in `update`:
`path = os.path.normpath(file_name).split(os.sep)` and
`datetime.date(int(path[-4]), int(path[-3]), int(path[-2]))`; `none` models
the exception (caught by the scanner's bare `except`) on any failure. -/
def parse_born_date (p : String) : Option Date :=
  let segs := splitSlash (normpath p)
  if segs.length < 4 then none
  else do
    let y ← pyInt (segs.getD (segs.length - 4) (""))
    let m ← pyInt (segs.getD (segs.length - 3) (""))
    let d ← pyInt (segs.getD (segs.length - 2) (""))
    mk_date y m d

/-! ## File records and the `Storage` index -/

/-- The `File` dataclass. -/
structure File where
  size : Nat
  path : String
  born_date : Date
deriving DecidableEq, Repr

/-- The `PrioritizedItem` dataclass (ordered by `priority` only; `item` is
`compare=False`). -/
structure PrioritizedItem where
  priority : Int
  item : File
deriving DecidableEq, Repr

/-- The `Storage` class state: `_queue_remove` (a `queue.PriorityQueue`,
modelled as the list of items it holds, in insertion order) and
`_exist_files` (a `set` of paths, modelled as a duplicate-free list). -/
structure Storage where
  queue_remove : List PrioritizedItem
  exist_files : List String
deriving DecidableEq, Repr

/-- `Storage.__init__`. -/
def emptyStorage : Storage := ⟨[], []⟩

/-- `Storage.is_file_exist`. -/
def is_file_exist (s : Storage) (file_name : String) : Bool :=
  s.exist_files.contains file_name

/-- `Storage.add_file`: unconditionally `put_nowait` the prioritized item and
`set.add` the path (Python `set.add` is a no-op on a present element). -/
def add_file (s : Storage) (f : File) : Storage :=
  { queue_remove := s.queue_remove ++ [⟨days_since_epoch f.born_date, f⟩]
    exist_files :=
      if s.exist_files.contains f.path then s.exist_files
      else s.exist_files ++ [f.path] }

/-- Contract of `PriorityQueue.get_nowait` / heap root access: an element of
minimal priority together with the remaining elements.  Among equal
priorities the heap's choice is unspecified; the model takes the first. -/
def extractMin : List PrioritizedItem → Option (PrioritizedItem × List PrioritizedItem)
  | [] => none
  | x :: xs =>
    match extractMin xs with
    | none => some (x, [])
    | some (m, rest) =>
      if x.priority ≤ m.priority then some (x, xs) else some (m, x :: rest)

/-- `Storage.age_oldest_file`: the priority at the heap root
(`self._queue_remove.queue[0].priority`), `None` when empty. -/
def age_oldest_file (s : Storage) : Option Int :=
  match extractMin s.queue_remove with
  | none => none
  | some (m, _) => some m.priority

/-- `Storage.is_empty`. -/
def is_empty (s : Storage) : Bool :=
  s.queue_remove.isEmpty

/-- Result of `Storage.pop_oldest_file`: the `None` sentinel on an empty
queue, the popped file and the new state on success, or the uncaught
`KeyError` that `self._exist_files.remove(file.path)` raises when the path is
not in the membership set. -/
inductive PopResult where
  | empty : PopResult
  | ok : File → Storage → PopResult
  | keyError : PopResult
deriving DecidableEq, Repr

/-- `Storage.pop_oldest_file`. -/
def pop_oldest_file (s : Storage) : PopResult :=
  match extractMin s.queue_remove with
  | none => PopResult.empty
  | some (m, rest) =>
    if s.exist_files.contains m.item.path then
      PopResult.ok m.item ⟨rest, s.exist_files.erase m.item.path⟩
    else PopResult.keyError

/-- The scanner's guarded insertion (`update` lines 79–83): `add_file` is
reached only when `is_file_exist` is false. -/
def insert_file (s : Storage) (f : File) : Storage :=
  if is_file_exist s f.path then s else add_file s f

/-- Paths of the records currently in the priority queue. -/
def queuePaths (s : Storage) : List String :=
  s.queue_remove.map (fun it => it.item.path)

/-- Invariant of `Storage` under the program's guarded usage: queue paths are
duplicate-free, the membership set holds exactly the queue's paths, and every
queued item carries the priority `add_file` computed from its record. -/
def InvS (s : Storage) : Prop :=
  (queuePaths s).Nodup ∧ s.exist_files.Perm (queuePaths s) ∧
  ∀ it ∈ s.queue_remove, it.priority = days_since_epoch it.item.born_date

instance (s : Storage) : Decidable (InvS s) := by
  unfold InvS; infer_instance

/-- Iterated `pop_oldest_file` (stops changing state once the pop no longer
succeeds). -/
def popN : Nat → Storage → Storage
  | 0, s => s
  | n + 1, s =>
    match pop_oldest_file s with
    | PopResult.ok _ s' => popN n s'
    | _ => s

/-! ## Priority-queue and invariant lemmas -/

theorem extractMin_none_iff (l : List PrioritizedItem) :
    extractMin l = none ↔ l = [] := by
  cases l with
  | nil => simp [extractMin]
  | cons x xs =>
    simp only [extractMin]
    cases h : extractMin xs with
    | none => simp
    | some p =>
      obtain ⟨m, rest⟩ := p
      by_cases hle : x.priority ≤ m.priority <;> simp [hle]

theorem extractMin_perm {l : List PrioritizedItem} {m : PrioritizedItem}
    {rest : List PrioritizedItem} (h : extractMin l = some (m, rest)) :
    l.Perm (m :: rest) := by
  induction l generalizing m rest with
  | nil => simp [extractMin] at h
  | cons x xs ih =>
    simp only [extractMin] at h
    cases h' : extractMin xs with
    | none =>
      rw [h'] at h
      simp only [Option.some.injEq, Prod.mk.injEq] at h
      obtain ⟨rfl, rfl⟩ := h
      have hxs : xs = [] := (extractMin_none_iff xs).mp h'
      subst hxs
      exact List.Perm.refl _
    | some p =>
      obtain ⟨m', rest'⟩ := p
      rw [h'] at h
      by_cases hle : x.priority ≤ m'.priority
      · simp only [hle, if_true, Option.some.injEq, Prod.mk.injEq] at h
        obtain ⟨rfl, rfl⟩ := h
        exact List.Perm.refl _
      · simp only [hle, if_false, Option.some.injEq, Prod.mk.injEq] at h
        obtain ⟨rfl, rfl⟩ := h
        have hperm := ih h'
        exact (hperm.cons x).trans (List.Perm.swap m' x rest')

theorem extractMin_min {l : List PrioritizedItem} {m : PrioritizedItem}
    {rest : List PrioritizedItem} (h : extractMin l = some (m, rest)) :
    ∀ x ∈ l, m.priority ≤ x.priority := by
  induction l generalizing m rest with
  | nil => simp [extractMin] at h
  | cons y ys ih =>
    simp only [extractMin] at h
    cases h' : extractMin ys with
    | none =>
      rw [h'] at h
      simp only [Option.some.injEq, Prod.mk.injEq] at h
      obtain ⟨rfl, rfl⟩ := h
      have hys : ys = [] := (extractMin_none_iff ys).mp h'
      subst hys
      intro x hx
      simp at hx
      subst hx
      exact le_refl _
    | some p =>
      obtain ⟨m', rest'⟩ := p
      rw [h'] at h
      by_cases hle : y.priority ≤ m'.priority
      · simp only [hle, if_true, Option.some.injEq, Prod.mk.injEq] at h
        obtain ⟨rfl, rfl⟩ := h
        intro x hx
        rcases List.mem_cons.mp hx with rfl | hx
        · exact le_refl _
        · exact le_trans hle (ih h' x hx)
      · simp only [hle, if_false, Option.some.injEq, Prod.mk.injEq] at h
        obtain ⟨rfl, rfl⟩ := h
        intro x hx
        rcases List.mem_cons.mp hx with rfl | hx
        · exact le_of_not_le hle
        · exact ih h' x hx

theorem extractMin_mem {l : List PrioritizedItem} {m : PrioritizedItem}
    {rest : List PrioritizedItem} (h : extractMin l = some (m, rest)) :
    m ∈ l :=
  (extractMin_perm h).mem_iff.mpr (List.mem_cons_self m rest)

theorem extractMin_length {l : List PrioritizedItem} {m : PrioritizedItem}
    {rest : List PrioritizedItem} (h : extractMin l = some (m, rest)) :
    rest.length + 1 = l.length := by
  have := (extractMin_perm h).length_eq
  simp at this
  omega

theorem contains_iff_mem (l : List String) (p : String) :
    l.contains p = true ↔ p ∈ l := by
  simp [List.contains]

/-- `insert_file` (and hence the scanner's guarded use of `add_file`)
preserves the storage invariant. -/
theorem add_file_inv {s : Storage} (h : InvS s) (f : File)
    (hguard : is_file_exist s f.path = false) : InvS (add_file s f) := by
  obtain ⟨hnd, hperm, hpri⟩ := h
  have hcc : s.exist_files.contains f.path = false := hguard
  have hnotmem : f.path ∉ s.exist_files := by
    intro hm
    rw [(contains_iff_mem _ _).mpr hm] at hcc
    simp at hcc
  have hnotq : f.path ∉ queuePaths s := fun hm => hnotmem (hperm.mem_iff.mpr hm)
  have hq : (add_file s f).queue_remove
      = s.queue_remove ++ [⟨days_since_epoch f.born_date, f⟩] := rfl
  have he : (add_file s f).exist_files = s.exist_files ++ [f.path] := by
    unfold add_file
    rw [hcc]
    simp
  refine ⟨?_, ?_, ?_⟩
  · show ((add_file s f).queue_remove.map (fun it => it.item.path)).Nodup
    rw [hq]
    simp only [List.map_append, List.map_cons, List.map_nil]
    rw [List.nodup_append]
    refine ⟨hnd, List.nodup_singleton _, ?_⟩
    intro a ha hb
    simp at hb
    subst hb
    exact hnotq ha
  · show (add_file s f).exist_files.Perm ((add_file s f).queue_remove.map (fun it => it.item.path))
    rw [hq, he]
    simp only [List.map_append, List.map_cons, List.map_nil]
    exact hperm.append (List.Perm.refl _)
  · intro it hit
    rw [hq] at hit
    simp only [List.mem_append, List.mem_cons, List.not_mem_nil, or_false] at hit
    rcases hit with hit | rfl
    · exact hpri it hit
    · rfl

/-- `insert_file` (the scanner's guarded insertion) preserves the storage
invariant. -/
theorem insert_file_inv {s : Storage} (h : InvS s) (f : File) :
    InvS (insert_file s f) := by
  cases hc : is_file_exist s f.path with
  | true => simpa [insert_file, hc] using h
  | false =>
    have : insert_file s f = add_file s f := by simp [insert_file, hc]
    rw [this]
    exact add_file_inv h f hc

theorem foldl_insert_inv (files : List File) {s : Storage} (h : InvS s) :
    InvS (files.foldl insert_file s) := by
  induction files generalizing s with
  | nil => exact h
  | cons f fs ih => exact ih (insert_file_inv h f)

theorem emptyStorage_inv : InvS emptyStorage := by decide

/-- Under the invariant, popping a nonempty storage succeeds, never raises
`KeyError`, returns a minimum-priority record, and preserves the invariant. -/
theorem pop_spec {s : Storage} (h : InvS s) (hne : s.queue_remove ≠ []) :
    ∃ m rest, extractMin s.queue_remove = some (m, rest) ∧
      pop_oldest_file s = PopResult.ok m.item ⟨rest, s.exist_files.erase m.item.path⟩ ∧
      InvS ⟨rest, s.exist_files.erase m.item.path⟩ ∧
      (∀ x ∈ s.queue_remove, m.priority ≤ x.priority) ∧
      m.priority = days_since_epoch m.item.born_date ∧
      rest.length + 1 = s.queue_remove.length := by
  obtain ⟨hnd, hperm, hpri⟩ := h
  cases hex : extractMin s.queue_remove with
  | none => exact absurd ((extractMin_none_iff _).mp hex) hne
  | some p =>
    obtain ⟨m, rest⟩ := p
    have hmem : m ∈ s.queue_remove := extractMin_mem hex
    have hpq : m.item.path ∈ queuePaths s := List.mem_map_of_mem _ hmem
    have hmemset : m.item.path ∈ s.exist_files := hperm.mem_iff.mpr hpq
    have hpathperm : (queuePaths s).Perm (m.item.path :: rest.map (fun it => it.item.path)) := by
      have := (extractMin_perm hex).map (fun it => it.item.path)
      simpa [queuePaths] using this
    have hcont : s.exist_files.contains m.item.path = true :=
      (contains_iff_mem _ _).mpr hmemset
    refine ⟨m, rest, rfl, ?_, ⟨?_, ?_, ?_⟩, extractMin_min hex, hpri m hmem, extractMin_length hex⟩
    · simp [pop_oldest_file, hex, hcont, hmemset]
    · have : (m.item.path :: rest.map (fun it => it.item.path)).Nodup :=
        hpathperm.nodup_iff.mp hnd
      exact (List.nodup_cons.mp this).2
    · have h1 : (s.exist_files.erase m.item.path).Perm
          ((queuePaths s).erase m.item.path) := hperm.erase _
      have h2 : ((queuePaths s).erase m.item.path).Perm
          ((m.item.path :: rest.map (fun it => it.item.path)).erase m.item.path) :=
        hpathperm.erase _
      have h3 : (m.item.path :: rest.map (fun it => it.item.path)).erase m.item.path
          = rest.map (fun it => it.item.path) := List.erase_cons_head _ _
      show (s.exist_files.erase m.item.path).Perm (rest.map (fun it => it.item.path))
      rw [← h3]
      exact h1.trans h2
    · intro it hit
      have : it ∈ s.queue_remove := (extractMin_perm hex).mem_iff.mpr (List.mem_cons_of_mem _ hit)
      exact hpri it this

/-- Under the invariant the pop never raises `KeyError`. -/
theorem pop_no_keyError {s : Storage} (h : InvS s) :
    pop_oldest_file s ≠ PopResult.keyError := by
  cases hne : s.queue_remove with
  | nil =>
    unfold pop_oldest_file
    rw [hne]
    simp [extractMin]
  | cons x xs =>
    obtain ⟨m, rest, _, hpop, _, _, _, _⟩ := pop_spec h (by rw [hne]; simp)
    rw [hpop]
    simp

theorem popN_inv {s : Storage} (h : InvS s) (n : Nat) :
    InvS (popN n s) ∧ (popN n s).queue_remove.length = s.queue_remove.length - n := by
  induction n generalizing s with
  | zero => exact ⟨h, by simp [popN]⟩
  | succ k ih =>
    by_cases hne : s.queue_remove = []
    · have hpop : pop_oldest_file s = PopResult.empty := by
        unfold pop_oldest_file
        rw [hne]
        simp [extractMin]
      unfold popN
      rw [hpop]
      exact ⟨h, by rw [hne]; simp⟩
    · obtain ⟨m, rest, _, hpop, hinv, _, _, hlen⟩ := pop_spec h hne
      unfold popN
      rw [hpop]
      obtain ⟨ih1, ih2⟩ := ih hinv
      refine ⟨ih1, ?_⟩
      simp at ih2 ⊢
      omega

/-! ## Operation sequences on `Storage` -/

/-- A `Storage` operation as performed by the program: an `add_file` call or a
`pop_oldest_file` call. -/
inductive StOp where
  | add : File → StOp
  | pop : StOp
deriving DecidableEq, Repr

/-- One `Storage` operation (a failed pop leaves the state unchanged). -/
def stepOp (s : Storage) : StOp → Storage
  | StOp.add f => add_file s f
  | StOp.pop =>
    match pop_oldest_file s with
    | PopResult.ok _ s' => s'
    | _ => s

def runOps (s : Storage) : List StOp → Storage
  | [] => s
  | op :: ops => runOps (stepOp s op) ops

/-- The guarded usage the scanner follows: `add_file` is only called on a
path that `is_file_exist` reports as untracked. -/
def guardedB (s : Storage) : List StOp → Bool
  | [] => true
  | StOp.add f :: ops => !is_file_exist s f.path && guardedB (add_file s f) ops
  | StOp.pop :: ops => guardedB (stepOp s StOp.pop) ops

theorem runOps_append (l r : List StOp) (s : Storage) :
    runOps s (l ++ r) = runOps (runOps s l) r := by
  induction l generalizing s with
  | nil => rfl
  | cons op ops ih => simp [runOps, ih]

theorem guardedB_take {l r : List StOp} {s : Storage}
    (h : guardedB s (l ++ r) = true) :
    guardedB s l = true ∧ guardedB (runOps s l) r = true := by
  induction l generalizing s with
  | nil => exact ⟨rfl, h⟩
  | cons op ops ih =>
    cases op with
    | add f =>
      simp only [List.cons_append, guardedB, Bool.and_eq_true] at h ⊢
      obtain ⟨h1, h2⟩ := h
      obtain ⟨ih1, ih2⟩ := ih h2
      exact ⟨⟨h1, ih1⟩, by simpa [runOps, stepOp] using ih2⟩
    | pop =>
      simp only [List.cons_append, guardedB] at h ⊢
      obtain ⟨ih1, ih2⟩ := ih h
      exact ⟨ih1, by simpa [runOps] using ih2⟩

theorem stepOp_pop_inv {s : Storage} (h : InvS s) : InvS (stepOp s StOp.pop) := by
  by_cases hne : s.queue_remove = []
  · have hpop : pop_oldest_file s = PopResult.empty := by
      unfold pop_oldest_file
      rw [hne]
      simp [extractMin]
    simp [stepOp, hpop]
    exact h
  · obtain ⟨m, rest, _, hpop, hinv, _, _, _⟩ := pop_spec h hne
    simp [stepOp, hpop]
    exact hinv

theorem runOps_inv {s : Storage} (h : InvS s) {ops : List StOp}
    (hg : guardedB s ops = true) : InvS (runOps s ops) := by
  induction ops generalizing s with
  | nil => exact h
  | cons op ops ih =>
    cases op with
    | add f =>
      simp only [guardedB, Bool.and_eq_true, Bool.not_eq_true'] at hg
      exact ih (add_file_inv h f hg.1) hg.2
    | pop =>
      simp only [guardedB] at hg
      exact ih (stepOp_pop_inv h) hg

/-! ## C1, C2, C9 -/

/-- C1: for every sequence of inserts into the File Index, `pop_oldest_file`
removes and returns a record whose priority key (the days-since-epoch of its
born date) is minimal among all records currently tracked — and this remains
true after any number of further pops; once every tracked record has been
popped, `is_empty` returns `true` and a further `pop_oldest_file` returns the
empty sentinel. -/
theorem c1_pop_oldest_min (files : List File) (n : Nat) :
    ((popN n (files.foldl insert_file emptyStorage)).queue_remove ≠ [] →
      ∃ f s', pop_oldest_file (popN n (files.foldl insert_file emptyStorage))
          = PopResult.ok f s' ∧
        ∀ x ∈ (popN n (files.foldl insert_file emptyStorage)).queue_remove,
          days_since_epoch f.born_date ≤ x.priority) ∧
    is_empty (popN (files.foldl insert_file emptyStorage).queue_remove.length
      (files.foldl insert_file emptyStorage)) = true ∧
    pop_oldest_file (popN (files.foldl insert_file emptyStorage).queue_remove.length
      (files.foldl insert_file emptyStorage)) = PopResult.empty := by
  have hinv0 : InvS (files.foldl insert_file emptyStorage) :=
    foldl_insert_inv files emptyStorage_inv
  refine ⟨?_, ?_, ?_⟩
  · intro hne
    obtain ⟨hinv, _⟩ := popN_inv hinv0 n
    obtain ⟨m, rest, _, hpop, _, hmin, hpriEq, _⟩ := pop_spec hinv hne
    refine ⟨m.item, _, hpop, ?_⟩
    intro x hx
    rw [← hpriEq]
    exact hmin x hx
  · obtain ⟨_, hlen⟩ := popN_inv hinv0 (files.foldl insert_file emptyStorage).queue_remove.length
    have : (popN (files.foldl insert_file emptyStorage).queue_remove.length
        (files.foldl insert_file emptyStorage)).queue_remove.length = 0 := by omega
    unfold is_empty
    rw [List.isEmpty_iff, ← List.length_eq_zero]
    exact this
  · obtain ⟨_, hlen⟩ := popN_inv hinv0 (files.foldl insert_file emptyStorage).queue_remove.length
    have h0 : (popN (files.foldl insert_file emptyStorage).queue_remove.length
        (files.foldl insert_file emptyStorage)).queue_remove.length = 0 := by omega
    have hq : (popN (files.foldl insert_file emptyStorage).queue_remove.length
        (files.foldl insert_file emptyStorage)).queue_remove = [] :=
      List.length_eq_zero.mp h0
    unfold pop_oldest_file
    rw [hq]
    simp [extractMin]

/-- A concrete file record used by the concrete witnesses below. -/
def fileA : File := ⟨10, "/d/2020/01/01/a.txt", ⟨2020, 1, 1⟩⟩

/-- A second concrete file record (younger than `fileA`). -/
def fileB : File := ⟨5, "/d/2020/06/15/b.txt", ⟨2020, 6, 15⟩⟩

theorem c1_witness :
    ((popN 0 ([fileA, fileB].foldl insert_file emptyStorage)).queue_remove ≠ [] ∧
      ∃ f s', pop_oldest_file (popN 0 ([fileA, fileB].foldl insert_file emptyStorage))
          = PopResult.ok f s' ∧
        ∀ x ∈ (popN 0 ([fileA, fileB].foldl insert_file emptyStorage)).queue_remove,
          days_since_epoch f.born_date ≤ x.priority) ∧
    is_empty (popN ([fileA, fileB].foldl insert_file emptyStorage).queue_remove.length
      ([fileA, fileB].foldl insert_file emptyStorage)) = true :=
  ⟨⟨by decide, (c1_pop_oldest_min [fileA, fileB] 0).1 (by decide)⟩,
   (c1_pop_oldest_min [fileA, fileB] 0).2.1⟩

/-- C2 counterexample: `Storage.add_file` called on a file whose path is
already tracked is not a no-op — the ordering structure (the priority queue)
grows from one entry to two, even though the membership set is unchanged. -/
theorem c2_counterexample :
    is_file_exist (add_file emptyStorage fileA) fileA.path = true ∧
    (add_file emptyStorage fileA).queue_remove.length = 1 ∧
    (add_file (add_file emptyStorage fileA) fileA).queue_remove.length = 2 ∧
    (add_file (add_file emptyStorage fileA) fileA).exist_files
      = (add_file emptyStorage fileA).exist_files := by decide

/-- C2 (amended): `Storage.add_file` itself is unguarded (a duplicate call
adds a second queue entry), but the insertion the program performs — the
scanner's `is_file_exist` check followed by `add_file` (`insert_file`) — is a
no-op on an already-tracked path, leaving both structures' sizes unchanged
and the existing record in place; under this guarded insertion the index
holds at most one record per distinct path. -/
theorem c2_guarded_insert_noop (files : List File) (f : File) :
    (queuePaths (files.foldl insert_file emptyStorage)).Nodup ∧
    (is_file_exist (files.foldl insert_file emptyStorage) f.path = true →
      insert_file (files.foldl insert_file emptyStorage) f
        = files.foldl insert_file emptyStorage) := by
  have hinv := foldl_insert_inv files emptyStorage_inv
  exact ⟨hinv.1, fun h => by simp [insert_file, h]⟩

theorem c2_witness :
    (queuePaths ([fileA].foldl insert_file emptyStorage)).Nodup ∧
    is_file_exist ([fileA].foldl insert_file emptyStorage) fileA.path = true ∧
    insert_file ([fileA].foldl insert_file emptyStorage) fileA
      = [fileA].foldl insert_file emptyStorage :=
  ⟨(c2_guarded_insert_noop [fileA] fileA).1, by decide,
   (c2_guarded_insert_noop [fileA] fileA).2 (by decide)⟩

/-- C9: under the guarded usage (every `add_file` performed on an untracked
path), after every prefix of the operation sequence the membership set holds
exactly the paths of the records in the priority queue, and the
`set.remove` inside `pop_oldest_file` never raises `KeyError`. -/
theorem c9_exist_files_matches_queue (ops : List StOp)
    (hg : guardedB emptyStorage ops = true) :
    (∀ l r, ops = l ++ r →
      (runOps emptyStorage l).exist_files.Perm (queuePaths (runOps emptyStorage l)) ∧
      (queuePaths (runOps emptyStorage l)).Nodup) ∧
    (∀ l r, ops = l ++ StOp.pop :: r →
      pop_oldest_file (runOps emptyStorage l) ≠ PopResult.keyError) := by
  constructor
  · intro l r hsplit
    subst hsplit
    have hgl := (guardedB_take hg).1
    have hinv := runOps_inv emptyStorage_inv hgl
    exact ⟨hinv.2.1, hinv.1⟩
  · intro l r hsplit
    subst hsplit
    have hgl := (guardedB_take (l := l) (r := StOp.pop :: r) hg).1
    exact pop_no_keyError (runOps_inv emptyStorage_inv hgl)

theorem c9_witness :
    guardedB emptyStorage [StOp.add fileA, StOp.add fileB, StOp.pop, StOp.pop] = true ∧
    (runOps emptyStorage [StOp.add fileA, StOp.add fileB]).exist_files.Perm
      (queuePaths (runOps emptyStorage [StOp.add fileA, StOp.add fileB])) ∧
    pop_oldest_file (runOps emptyStorage [StOp.add fileA, StOp.add fileB])
      ≠ PopResult.keyError :=
  ⟨by decide,
   ((c9_exist_files_matches_queue _ (by decide)).1
      [StOp.add fileA, StOp.add fileB] [StOp.pop, StOp.pop] rfl).1,
   (c9_exist_files_matches_queue _ (by decide)).2
      [StOp.add fileA, StOp.add fileB] [StOp.pop] rfl⟩

/-! ## C6: birth-date parsing -/

/-- C6: parsing `/data/2023/11/07/img.jpg` yields born date 2023-11-07;
`fails with InvalidPathFormat` (modelled as `none`, the exception the
scanner's bare `except` catches) exactly when the normalized path has fewer
than 4 segments, one of the three segments before the file name is
non-numeric, or the numeric values do not form a valid calendar date; in
particular `/data/bad/path.jpg` fails. -/
theorem c6_parse_born_date :
    parse_born_date ("/data/2023/11/07/img.jpg") = some ⟨2023, 11, 7⟩ ∧
    parse_born_date ("/data/bad/path.jpg") = none ∧
    ∀ p, parse_born_date p = none ↔
      ((splitSlash (normpath p)).length < 4 ∨
       pyInt (seg p 4) = none ∨ pyInt (seg p 3) = none ∨ pyInt (seg p 2) = none ∨
       ∃ y m d, pyInt (seg p 4) = some y ∧ pyInt (seg p 3) = some m ∧
         pyInt (seg p 2) = some d ∧ mk_date y m d = none) := by
  refine ⟨by decide, by decide, ?_⟩
  intro p
  unfold parse_born_date seg
  by_cases hlen : (splitSlash (normpath p)).length < 4
  · simp [hlen]
  · simp only [hlen, if_false]
    cases h4 : pyInt ((splitSlash (normpath p)).getD ((splitSlash (normpath p)).length - 4) ("")) with
    | none => simp [h4]
    | some y =>
      cases h3 : pyInt ((splitSlash (normpath p)).getD ((splitSlash (normpath p)).length - 3) ("")) with
      | none => simp [h4, h3]
      | some m =>
        cases h2 : pyInt ((splitSlash (normpath p)).getD ((splitSlash (normpath p)).length - 2) ("")) with
        | none => simp [h4, h3, h2]
        | some d => simp [h4, h3, h2]

/-! ## C7: the priority key is strictly monotonic and reversible -/

set_option maxHeartbeats 1000000 in
theorem daysBeforeYear_succ (y : Nat) (hy : 1 ≤ y) :
    daysBeforeYear (y + 1) = daysBeforeYear y + (if isLeap y then 366 else 365) := by
  have hiff : isLeap y = true ↔ (y % 4 = 0 ∧ (y % 100 ≠ 0 ∨ y % 400 = 0)) := by
    simp [isLeap]
  cases hL : isLeap y with
  | true =>
    have hfact := hiff.mp hL
    simp only [hL, if_true]
    unfold daysBeforeYear
    omega
  | false =>
    have hfact : ¬(y % 4 = 0 ∧ (y % 100 ≠ 0 ∨ y % 400 = 0)) := by
      rw [← hiff]
      simp [hL]
    simp only [hL, Bool.false_eq_true, if_false]
    unfold daysBeforeYear
    omega

theorem daysBeforeYear_le_succ (y : Nat) :
    daysBeforeYear y ≤ daysBeforeYear (y + 1) := by
  cases y with
  | zero => decide
  | succ k =>
    rw [daysBeforeYear_succ (k + 1) (by omega)]
    omega

theorem daysBeforeYear_mono {a b : Nat} (h : a ≤ b) :
    daysBeforeYear a ≤ daysBeforeYear b := by
  induction b with
  | zero => simp at h; subst h; exact le_refl _
  | succ k ih =>
    rcases Nat.lt_or_ge a (k + 1) with hk | hk
    · exact le_trans (ih (by omega)) (daysBeforeYear_le_succ k)
    · have : a = k + 1 := by omega
      subst this
      exact le_refl _

theorem daysBeforeMonth_daysInMonth_le (y m : Nat) (hm1 : 1 ≤ m) (hm2 : m ≤ 12) :
    daysBeforeMonth y m + daysInMonth y m ≤ 365 + (if isLeap y then 1 else 0) := by
  interval_cases m <;> cases hL : isLeap y <;>
    simp [daysBeforeMonth, daysInMonth, hL]

theorem daysBeforeMonth_lt (y : Nat) {m1 d1 m2 d2 : Nat} (hm1 : 1 ≤ m1)
    (hmm : m1 < m2) (hm2 : m2 ≤ 12) (hd1 : d1 ≤ daysInMonth y m1) (hd2 : 1 ≤ d2) :
    daysBeforeMonth y m1 + d1 < daysBeforeMonth y m2 + d2 := by
  have hm12 : m1 ≤ 12 := by omega
  interval_cases m1 <;> interval_cases m2 <;> cases hL : isLeap y <;>
    simp [daysBeforeMonth, daysInMonth, hL] at hd1 ⊢ <;> omega

theorem toOrdinal_lt {a b : Date} (ha : a.Valid) (hb : b.Valid) (hlt : DateLt a b) :
    toOrdinal a < toOrdinal b := by
  obtain ⟨ha1, ha2, ha3, ha4, ha5, ha6⟩ := ha
  obtain ⟨hb1, hb2, hb3, hb4, hb5, hb6⟩ := hb
  rcases hlt with hy | ⟨hy, hm⟩ | ⟨hy, hm, hd⟩
  · have h1 : toOrdinal a ≤ daysBeforeYear a.year + 365 + (if isLeap a.year then 1 else 0) := by
      unfold toOrdinal
      have := daysBeforeMonth_daysInMonth_le a.year a.month ha3 ha4
      omega
    have h2 : daysBeforeYear a.year + 365 + (if isLeap a.year then 1 else 0)
        = daysBeforeYear (a.year + 1) := by
      rw [daysBeforeYear_succ a.year ha1]
      cases hL : isLeap a.year <;> simp [hL]
    have h3 : daysBeforeYear (a.year + 1) ≤ daysBeforeYear b.year :=
      daysBeforeYear_mono (by omega)
    have h4 : daysBeforeYear b.year < toOrdinal b := by
      unfold toOrdinal
      omega
    omega
  · unfold toOrdinal
    rw [hy]
    have ha6' : a.day ≤ daysInMonth b.year a.month := hy ▸ ha6
    have := daysBeforeMonth_lt b.year ha3 hm hb4 ha6' hb5
    omega
  · unfold toOrdinal
    rw [hy, hm]
    omega

/-- C7: `days_since_epoch` (the priority key) is a strictly monotonic
function of the calendar date on the supported range (`datetime`'s years
1..9999), hence reversible: the key determines the date, so the round trip
date → key → date recovers the original date. -/
theorem c7_days_since_epoch_mono (d1 d2 : Date) (h1 : d1.Valid) (h2 : d2.Valid) :
    (DateLt d1 d2 ↔ days_since_epoch d1 < days_since_epoch d2) ∧
    (days_since_epoch d1 = days_since_epoch d2 → d1 = d2) := by
  have key : ∀ a b : Date, a.Valid → b.Valid → DateLt a b →
      days_since_epoch a < days_since_epoch b := by
    intro a b ha hb hlt
    unfold days_since_epoch
    have := toOrdinal_lt ha hb hlt
    omega
  have tri : ∀ a b : Date, a = b ∨ DateLt a b ∨ DateLt b a := by
    intro a b
    cases a with
    | mk a1 a2 a3 =>
      cases b with
      | mk b1 b2 b3 =>
        simp only [Date.mk.injEq, DateLt]
        omega
  refine ⟨⟨key d1 d2 h1 h2, ?_⟩, ?_⟩
  · intro hdays
    rcases tri d1 d2 with rfl | hlt | hgt
    · exact absurd hdays (lt_irrefl _)
    · exact hlt
    · exact absurd (key d2 d1 h2 h1 hgt) (by omega)
  · intro heq
    rcases tri d1 d2 with rfl | hlt | hgt
    · rfl
    · exact absurd (key d1 d2 h1 h2 hlt) (by omega)
    · exact absurd (key d2 d1 h2 h1 hgt) (by omega)

theorem c7_witness :
    Date.Valid ⟨2020, 2, 29⟩ ∧ Date.Valid ⟨2020, 3, 1⟩ ∧
    ((DateLt ⟨2020, 2, 29⟩ ⟨2020, 3, 1⟩ ↔
        days_since_epoch ⟨2020, 2, 29⟩ < days_since_epoch ⟨2020, 3, 1⟩) ∧
      (days_since_epoch ⟨2020, 2, 29⟩ = days_since_epoch ⟨2020, 3, 1⟩ →
        (⟨2020, 2, 29⟩ : Date) = ⟨2020, 3, 1⟩)) :=
  ⟨by decide, by decide,
   c7_days_since_epoch_mono ⟨2020, 2, 29⟩ ⟨2020, 3, 1⟩ (by decide) (by decide)⟩

/-! ## Log events -/

/-- Severity of a `logging` call: `logging.info` or `logging.error`. -/
inductive LogLevel where
  | info
  | error
deriving DecidableEq, Repr

/-- One emitted log event: the severity of the call plus the message. -/
structure LogEvent where
  level : LogLevel
  msg : String
deriving DecidableEq, Repr

/-- `logging.info(f'Detect new file: {file.path}')`. -/
def ev_detect (p : String) : LogEvent :=
  ⟨LogLevel.info, ("Detect new file: ") ++ p⟩

/-- `logging.info(f'ERROR: Permission denied for view info {file_name}')` —
the scanner's bare-`except` handler (note: emitted via `logging.info`). -/
def ev_scanErr (p : String) : LogEvent :=
  ⟨LogLevel.info, ("ERROR: Permission denied for view info ") ++ p⟩

/-- `logging.info(f'Move to archive file {file.path}')`. -/
def ev_archived (p : String) : LogEvent :=
  ⟨LogLevel.info, ("Move to archive file ") ++ p⟩

/-- The evictor's failure event (note: emitted via `logging.info`). -/
def ev_archErr (p : String) : LogEvent :=
  ⟨LogLevel.info, ("ERROR: Can\x27t delete or archive file ") ++ p⟩

/-! ## The scanner `update` over a static filesystem tree -/

/-- A static filesystem node: a file with its `os.path.getsize`, or a
directory with its `os.listdir` entries in listing order. -/
inductive FsNode where
  | file : Nat → FsNode
  | dir : List (String × FsNode) → FsNode

mutual

def nodeSize : FsNode → Nat
  | FsNode.file _ => 1
  | FsNode.dir es => 1 + entriesSize es

def entriesSize : List (String × FsNode) → Nat
  | [] => 0
  | (_, c) :: rest => nodeSize c + entriesSize rest

end

/-- The scanner's per-directory loop: skip names starting with `'.'`, join
the remaining names onto the directory path (`os.path.join`). -/
def joinChildren (p : String) : List (String × FsNode) → List (String × FsNode)
  | [] => []
  | (n, c) :: rest =>
    if startsWithChar n '.' then joinChildren p rest
    else (p ++ ("/") ++ n, c) :: joinChildren p rest

def queueSize : List (String × FsNode) → Nat
  | [] => 0
  | (_, n) :: rest => nodeSize n + queueSize rest

/-- Result of a scanner run: the updated storage, the emitted log events and
the processed entries (deque pops) in order. -/
structure ScanRes where
  storage : Storage
  log : List LogEvent
  trace : List String
deriving DecidableEq, Repr

/-- The `while len(queue) > 0` loop of `update`.  The deque is the list
argument with its head at the `pop` end; `appendleft` appends at the list's
tail, so the loop body's `queue.appendleft` of each child becomes `rest ++
joinChildren p entries`.  The fuel argument is an upper bound on the loop's
iteration count (any fuel at least `queueSize` of the queue is exact). -/
def updateLoopF : Nat → Storage → List (String × FsNode) → ScanRes
  | _, s, [] => ⟨s, [], []⟩
  | 0, s, _ :: _ => ⟨s, [], []⟩
  | fuel + 1, s, (p, FsNode.dir entries) :: rest =>
    let r := updateLoopF fuel s (rest ++ joinChildren p entries)
    ⟨r.storage, r.log, p :: r.trace⟩
  | fuel + 1, s, (p, FsNode.file size) :: rest =>
    if is_file_exist s p then
      let r := updateLoopF fuel s rest
      ⟨r.storage, r.log, p :: r.trace⟩
    else
      match parse_born_date p with
      | some d =>
        let r := updateLoopF fuel (add_file s ⟨size, p, d⟩) rest
        ⟨r.storage, ev_detect p :: r.log, p :: r.trace⟩
      | none =>
        let r := updateLoopF fuel s rest
        ⟨r.storage, ev_scanErr p :: r.log, p :: r.trace⟩

/-- `update(storage, config)` against a static tree `fs` mounted at the
configured `STORAGE_DIRECTORY` path `root`. -/
def update (s : Storage) (root : String) (fs : FsNode) : ScanRes :=
  updateLoopF (nodeSize fs) s [(root, fs)]

/-! ## Trace functions for the traversal-order claims -/

theorem nodeSize_pos (n : FsNode) : 1 ≤ nodeSize n := by
  cases n <;> simp [nodeSize]

theorem queueSize_append (q1 q2 : List (String × FsNode)) :
    queueSize (q1 ++ q2) = queueSize q1 + queueSize q2 := by
  induction q1 with
  | nil => simp [queueSize]
  | cons e rest ih =>
    obtain ⟨n, c⟩ := e
    simp [queueSize, ih]
    omega

theorem queueSize_joinChildren (p : String) (entries : List (String × FsNode)) :
    queueSize (joinChildren p entries) ≤ entriesSize entries := by
  induction entries with
  | nil => simp [joinChildren, queueSize, entriesSize]
  | cons e rest ih =>
    obtain ⟨n, c⟩ := e
    by_cases h : startsWithChar n '.' = true
    · simp [joinChildren, h, entriesSize]
      omega
    · simp only [joinChildren, h, Bool.false_eq_true, if_false, queueSize, entriesSize]
      omega

/-- The queue evolution of `updateLoopF`, keeping only the processing order
(ignores storage and logging, which do not influence the queue). -/
def traceQ (q : List (String × FsNode)) : List String :=
  match q with
  | [] => []
  | (p, FsNode.dir entries) :: rest => p :: traceQ (rest ++ joinChildren p entries)
  | (p, FsNode.file _) :: rest => p :: traceQ rest
termination_by queueSize q
decreasing_by
  · simp only [queueSize, queueSize_append, nodeSize]
    have := queueSize_joinChildren p entries
    omega
  · simp only [queueSize, nodeSize]
    omega

/-- Children contributed by one queue entry (hidden names filtered, joined
onto the parent path), in listing order. -/
def childrenOf : (String × FsNode) → List (String × FsNode)
  | (_, FsNode.file _) => []
  | (p, FsNode.dir entries) => joinChildren p entries

def flatChildren : List (String × FsNode) → List (String × FsNode)
  | [] => []
  | e :: rest => childrenOf e ++ flatChildren rest

theorem queueSize_childrenOf (p : String) (n : FsNode) :
    queueSize (childrenOf (p, n)) + 1 ≤ nodeSize n := by
  cases n with
  | file sz => simp [childrenOf, queueSize, nodeSize]
  | dir entries =>
    simp only [childrenOf, nodeSize]
    have := queueSize_joinChildren p entries
    omega

theorem queueSize_flatChildren_le (q : List (String × FsNode)) :
    queueSize (flatChildren q) ≤ queueSize q := by
  induction q with
  | nil => simp [flatChildren, queueSize]
  | cons e rest ih =>
    obtain ⟨p, n⟩ := e
    simp only [flatChildren, queueSize_append, queueSize]
    have := queueSize_childrenOf p n
    omega

theorem queueSize_flatChildren_lt (q : List (String × FsNode)) (h : q ≠ []) :
    queueSize (flatChildren q) < queueSize q := by
  cases q with
  | nil => exact absurd rfl h
  | cons e rest =>
    obtain ⟨p, n⟩ := e
    simp only [flatChildren, queueSize_append, queueSize]
    have h1 := queueSize_childrenOf p n
    have h2 := queueSize_flatChildren_le rest
    omega

/-- Level-order (breadth-first) processing: all entries currently queued, in
order, then all of their children, and so on. -/
def levelTrace (q : List (String × FsNode)) : List String :=
  match q with
  | [] => []
  | e :: rest => ((e :: rest).map Prod.fst) ++ levelTrace (flatChildren (e :: rest))
termination_by queueSize q
decreasing_by
  exact queueSize_flatChildren_lt (e :: rest) (by simp)

theorem updateLoopF_trace : ∀ (f : Nat) (q : List (String × FsNode)) (s : Storage),
    queueSize q ≤ f → (updateLoopF f s q).trace = traceQ q := by
  intro f
  induction f with
  | zero =>
    intro q s hq
    cases q with
    | nil => simp [updateLoopF, traceQ]
    | cons e rest =>
      obtain ⟨p, n⟩ := e
      exfalso
      simp [queueSize] at hq
      have := nodeSize_pos n
      omega
  | succ f ih =>
    intro q s hq
    cases q with
    | nil => simp [updateLoopF, traceQ]
    | cons e rest =>
      obtain ⟨p, n⟩ := e
      cases n with
      | dir entries =>
        have hq' : queueSize (rest ++ joinChildren p entries) ≤ f := by
          rw [queueSize_append]
          simp only [queueSize, nodeSize] at hq
          have := queueSize_joinChildren p entries
          omega
        simp only [updateLoopF, traceQ]
        rw [ih _ _ hq']
      | file sz =>
        have hq' : queueSize rest ≤ f := by
          simp only [queueSize, nodeSize] at hq
          omega
        cases hex : is_file_exist s p with
        | true =>
          simp only [updateLoopF, hex, if_true, traceQ]
          rw [ih _ _ hq']
        | false =>
          cases hpb : parse_born_date p with
          | some d =>
            simp only [updateLoopF, hex, Bool.false_eq_true, if_false, hpb, traceQ]
            rw [ih _ _ hq']
          | none =>
            simp only [updateLoopF, hex, Bool.false_eq_true, if_false, hpb, traceQ]
            rw [ih _ _ hq']

theorem traceQ_append (q1 q2 : List (String × FsNode)) :
    traceQ (q1 ++ q2) = q1.map Prod.fst ++ traceQ (q2 ++ flatChildren q1) := by
  induction q1 generalizing q2 with
  | nil => simp [flatChildren]
  | cons e q1' ih =>
    obtain ⟨p, n⟩ := e
    cases n with
    | dir entries =>
      rw [List.cons_append]
      simp only [traceQ]
      rw [List.append_assoc, ih (q2 ++ joinChildren p entries)]
      simp [flatChildren, childrenOf, List.append_assoc]
    | file sz =>
      rw [List.cons_append]
      simp only [traceQ]
      rw [ih q2]
      simp [flatChildren, childrenOf]

theorem traceQ_eq_levelTrace : ∀ (k : Nat) (q : List (String × FsNode)),
    queueSize q ≤ k → traceQ q = levelTrace q := by
  intro k
  induction k with
  | zero =>
    intro q hq
    cases q with
    | nil => simp [traceQ, levelTrace]
    | cons e rest =>
      obtain ⟨p, n⟩ := e
      exfalso
      simp [queueSize] at hq
      have := nodeSize_pos n
      omega
  | succ k ih =>
    intro q hq
    cases q with
    | nil => simp [traceQ, levelTrace]
    | cons e rest =>
      have h1 : traceQ (e :: rest)
          = (e :: rest).map Prod.fst ++ traceQ (flatChildren (e :: rest)) := by
        have h := traceQ_append (e :: rest) []
        simpa using h
      have hsz : queueSize (flatChildren (e :: rest)) ≤ k := by
        have := queueSize_flatChildren_lt (e :: rest) (by simp)
        omega
      rw [h1, ih _ hsz]
      conv_rhs => rw [levelTrace]

/-- C5 counterexample filesystem: a root directory listing the subdirectory
`a` first, then the file `b`; `a` contains the file `x`. -/
def fsEx : FsNode :=
  FsNode.dir [("a", FsNode.dir [("x", FsNode.file 1)]), ("b", FsNode.file 2)]

/-- C5 counterexample: after the root is processed (pushing `r/a` then
`r/b`, so `r/b` is the most recently pushed), the next entry the scanner
processes is `r/a`, not `r/b` — and the subdirectory `r/a`'s content
`r/a/x` is processed after `r/a`'s later sibling `r/b`, not before.  The
deque is used as a FIFO queue (`appendleft` + `pop`), not a stack. -/
theorem c5_counterexample :
    (update emptyStorage ("r") fsEx).trace = [("r"), ("r/a"), ("r/b"), ("r/a/x")] ∧
    (update emptyStorage ("r") fsEx).trace.get? 1 = some ("r/a") ∧
    ("r/a" : String) ≠ ("r/b") ∧
    ((update emptyStorage ("r") fsEx).trace.indexOf ("r/b") <
      (update emptyStorage ("r") fsEx).trace.indexOf ("r/a/x")) := by decide

/-- C5 (amended): the scanner's traversal is iterative over an explicit
`collections.deque`, but the deque is used `appendleft`/`pop`, i.e. as a
FIFO queue, so the traversal is breadth-first (level order): all entries of
the current queue are processed, in order, before any of their children —
a directory's contents are processed only after all of that directory's
later siblings. -/
theorem c5_scan_breadth_first (s : Storage) (root : String) (fs : FsNode) :
    (update s root fs).trace = levelTrace [(root, fs)] := by
  unfold update
  rw [updateLoopF_trace (nodeSize fs) [(root, fs)] s (by simp [queueSize])]
  exact traceQ_eq_levelTrace (queueSize [(root, fs)]) _ (le_refl _)

/-! ## C10: the hidden-name filter never applies to the root -/

/-- The files reachable from the queue through non-hidden listed names, with
their sizes (the filter applies to listed names only, the queued roots are
taken as given) — collected in the scanner's own processing order. -/
def filesOfF : Nat → List (String × FsNode) → List (String × Nat)
  | _, [] => []
  | 0, _ :: _ => []
  | f + 1, (p, FsNode.file sz) :: rest => (p, sz) :: filesOfF f rest
  | f + 1, (p, FsNode.dir entries) :: rest => filesOfF f (rest ++ joinChildren p entries)

/-- The non-hidden-reachable files of the tree `fs` mounted at `root`. -/
def visible_files (root : String) (fs : FsNode) : List (String × Nat) :=
  filesOfF (nodeSize fs) [(root, fs)]

theorem add_file_exist_mono {s : Storage} {x : String} (h : x ∈ s.exist_files)
    (f : File) : x ∈ (add_file s f).exist_files := by
  unfold add_file
  cases hc : s.exist_files.contains f.path with
  | true => simpa [hc] using h
  | false =>
    simp only [hc, Bool.false_eq_true, if_false]
    exact List.mem_append_left _ h

theorem updateLoopF_exist_mono : ∀ (f : Nat) (q : List (String × FsNode)) (s : Storage)
    (x : String), x ∈ s.exist_files → x ∈ (updateLoopF f s q).storage.exist_files := by
  intro f
  induction f with
  | zero =>
    intro q s x h
    cases q <;> simpa [updateLoopF] using h
  | succ f ih =>
    intro q s x h
    cases q with
    | nil => simpa [updateLoopF] using h
    | cons e rest =>
      obtain ⟨p, n⟩ := e
      cases n with
      | dir entries => simpa [updateLoopF] using ih _ _ _ h
      | file sz =>
        cases hex : is_file_exist s p with
        | true =>
          simp only [updateLoopF, hex, if_true]
          exact ih _ _ _ h
        | false =>
          cases hpb : parse_born_date p with
          | some d =>
            simp only [updateLoopF, hex, Bool.false_eq_true, if_false, hpb]
            exact ih _ _ _ (add_file_exist_mono h _)
          | none =>
            simp only [updateLoopF, hex, Bool.false_eq_true, if_false, hpb]
            exact ih _ _ _ h

theorem updateLoopF_tracks : ∀ (f : Nat) (q : List (String × FsNode)) (s : Storage)
    (p : String) (sz : Nat) (d : Date),
    queueSize q ≤ f → (p, sz) ∈ filesOfF f q → parse_born_date p = some d →
    p ∈ (updateLoopF f s q).storage.exist_files := by
  intro f
  induction f with
  | zero =>
    intro q s p sz d hq hmem hpd
    cases q with
    | nil => simp [filesOfF] at hmem
    | cons e rest =>
      obtain ⟨pp, n⟩ := e
      exfalso
      simp [queueSize] at hq
      have := nodeSize_pos n
      omega
  | succ f ih =>
    intro q s p sz d hq hmem hpd
    cases q with
    | nil => simp [filesOfF] at hmem
    | cons e rest =>
      obtain ⟨pp, n⟩ := e
      cases n with
      | dir entries =>
        simp only [filesOfF] at hmem
        have hq' : queueSize (rest ++ joinChildren pp entries) ≤ f := by
          rw [queueSize_append]
          simp only [queueSize, nodeSize] at hq
          have := queueSize_joinChildren pp entries
          omega
        simp only [updateLoopF]
        exact ih _ _ _ _ _ hq' hmem hpd
      | file sz' =>
        have hq' : queueSize rest ≤ f := by
          simp only [queueSize, nodeSize] at hq
          omega
        simp only [filesOfF] at hmem
        rcases List.mem_cons.mp hmem with heq | hmem'
        · rw [Prod.mk.injEq] at heq
          obtain ⟨rfl, rfl⟩ := heq
          cases hex : is_file_exist s p with
          | false =>
            simp only [updateLoopF, hex, Bool.false_eq_true, if_false, hpd]
            apply updateLoopF_exist_mono
            have hcc : s.exist_files.contains p = false := hex
            unfold add_file
            rw [hcc]
            simp
          | true =>
            simp only [updateLoopF, hex, if_true]
            exact updateLoopF_exist_mono _ _ _ _ ((contains_iff_mem _ _).mp hex)
        · cases hex : is_file_exist s pp with
          | true =>
            simp only [updateLoopF, hex, if_true]
            exact ih _ _ _ _ _ hq' hmem' hpd
          | false =>
            cases hpb : parse_born_date pp with
            | some d' =>
              simp only [updateLoopF, hex, Bool.false_eq_true, if_false, hpb]
              exact ih _ _ _ _ _ hq' hmem' hpd
            | none =>
              simp only [updateLoopF, hex, Bool.false_eq_true, if_false, hpb]
              exact ih _ _ _ _ _ hq' hmem' hpd

theorem updateLoopF_head (f : Nat) (s : Storage) (p : String) (n : FsNode)
    (rest : List (String × FsNode)) :
    (updateLoopF (f + 1) s ((p, n) :: rest)).trace.head? = some p := by
  cases n with
  | dir entries => simp [updateLoopF]
  | file sz =>
    cases hex : is_file_exist s p with
    | true => simp [updateLoopF, hex]
    | false => cases hpb : parse_born_date p <;> simp [updateLoopF, hex, hpb]

/-- C10: the hidden-entry filter (`name.startswith('.')`) is applied only to
names listed inside a directory, never to the configured root itself: a
watched root whose own base name begins with `.` is still processed first by
the scanner, and every non-hidden-reachable descendant file with a parseable
birth date ends up tracked in the index. -/
theorem c10_hidden_root_still_scanned (s : Storage) (root : String) (fs : FsNode)
    (hroot : startsWithChar (basename root) '.' = true) :
    (update s root fs).trace.head? = some root ∧
    ∀ p sz d, (p, sz) ∈ visible_files root fs → parse_born_date p = some d →
      p ∈ (update s root fs).storage.exist_files := by
  constructor
  · unfold update
    have hf : nodeSize fs = (nodeSize fs - 1) + 1 := by
      have := nodeSize_pos fs
      omega
    rw [hf]
    exact updateLoopF_head _ _ _ _ _
  · intro p sz d hmem hpd
    exact updateLoopF_tracks (nodeSize fs) [(root, fs)] s p sz d
      (by simp [queueSize]) hmem hpd

/-- C10 witness filesystem: a hidden-named root containing a dated subtree. -/
def fsHidden : FsNode :=
  FsNode.dir [("2023", FsNode.dir [("11", FsNode.dir [("07",
    FsNode.dir [("img.jpg", FsNode.file 4)])])])]

theorem c10_witness :
    startsWithChar (basename ("/.data")) '.' = true ∧
    (update emptyStorage ("/.data") fsHidden).trace.head? = some ("/.data") ∧
    ("/.data/2023/11/07/img.jpg", 4) ∈ visible_files ("/.data") fsHidden ∧
    parse_born_date ("/.data/2023/11/07/img.jpg") = some ⟨2023, 11, 7⟩ ∧
    ("/.data/2023/11/07/img.jpg") ∈
      (update emptyStorage ("/.data") fsHidden).storage.exist_files :=
  ⟨by decide,
   (c10_hidden_root_still_scanned emptyStorage ("/.data") fsHidden (by decide)).1,
   by decide, by decide,
   (c10_hidden_root_still_scanned emptyStorage ("/.data") fsHidden (by decide)).2
     ("/.data/2023/11/07/img.jpg") 4 ⟨2023, 11, 7⟩ (by decide) (by decide)⟩

/-! ## The evictor `clear` -/

/-- External outcome of one eviction iteration's filesystem block
(`mkdir` + `ZipFile.write` + `os.remove`): everything succeeded, a failure
before the archive-success log (directory creation or compression), or a
failure of `os.remove` after compression and the success log. -/
inductive ArchOutcome where
  | success
  | failBefore
  | failAtRemove
deriving DecidableEq, Repr

/-- Result of one `clear` invocation: final storage, the popped records in
order, the paths actually deleted (`os.remove`), the emitted log events in
order, and whether an uncaught exception escaped (`set.remove` `KeyError`
inside `pop_oldest_file`, which line 104 performs outside the `try`). -/
structure ClearRes where
  storage : Storage
  popped : List File
  deleted : List String
  log : List LogEvent
  crashed : Bool
deriving DecidableEq, Repr

/-- The evictor's `while` condition: the index is non-empty, AND the oldest
record is at least `THRESHOLD_FILES_OLD_DAYS` old relative to `now`, AND the
`k`-th `free_space()` comparison against `THRESHOLD_FREE_SPACE` reports low
space (the Boolean stream `low` abstracts the external float comparison). -/
def clearConds (now thr : Int) (low : Nat → Bool) (s : Storage) (k : Nat) : Bool :=
  !is_empty s &&
  (match age_oldest_file s with
   | some a => decide (thr ≤ now - a)
   | none => false) &&
  low k

/-- The `while` loop of `clear`.  `now` is computed once before the loop and
never changes across iterations; `k` counts iterations (indexing the
external oracles); the fuel is an iteration bound (each iteration pops one
record, so any fuel at least the queue length is exact). -/
def clearLoopF : Nat → Int → Int → (Nat → Bool) → (Nat → ArchOutcome) → Storage → Nat → ClearRes
  | 0, _, _, _, _, s, _ => ⟨s, [], [], [], false⟩
  | fuel + 1, now, thr, low, out, s, k =>
    if clearConds now thr low s k then
      match pop_oldest_file s with
      | PopResult.ok file s' =>
        let r := clearLoopF fuel now thr low out s' (k + 1)
        match out k with
        | ArchOutcome.success =>
          ⟨r.storage, file :: r.popped, file.path :: r.deleted,
           ev_archived file.path :: r.log, r.crashed⟩
        | ArchOutcome.failBefore =>
          ⟨r.storage, file :: r.popped, r.deleted,
           ev_archErr file.path :: r.log, r.crashed⟩
        | ArchOutcome.failAtRemove =>
          ⟨r.storage, file :: r.popped, r.deleted,
           ev_archived file.path :: ev_archErr file.path :: r.log, r.crashed⟩
      | _ => ⟨s, [], [], [], true⟩
    else ⟨s, [], [], [], false⟩

/-- `clear(storage, config)`: `now = (date.today() - date(1970,1,1)).days` is
taken as the parameter `now`, computed once per invocation. -/
def clear (now thr : Int) (low : Nat → Bool) (out : Nat → ArchOutcome)
    (s : Storage) : ClearRes :=
  clearLoopF s.queue_remove.length now thr low out s 0

theorem clearConds_false_of_empty (now thr : Int) (low : Nat → Bool) (s : Storage)
    (k : Nat) (h : s.queue_remove = []) : clearConds now thr low s k = false := by
  simp [clearConds, is_empty, h]

theorem clearLoopF_stop (fuel : Nat) (now thr : Int) (low : Nat → Bool)
    (out : Nat → ArchOutcome) (s : Storage) (k : Nat)
    (hc : clearConds now thr low s k = false) :
    clearLoopF fuel now thr low out s k = ⟨s, [], [], [], false⟩ := by
  cases fuel with
  | zero => simp [clearLoopF]
  | succ f => simp [clearLoopF, hc]

theorem clearLoopF_spec : ∀ (fuel : Nat) (now thr : Int) (low : Nat → Bool)
    (out : Nat → ArchOutcome) (s : Storage) (k : Nat),
    InvS s → s.queue_remove.length ≤ fuel →
    (clearLoopF fuel now thr low out s k).crashed = false ∧
    InvS (clearLoopF fuel now thr low out s k).storage ∧
    clearConds now thr low (clearLoopF fuel now thr low out s k).storage
      (k + (clearLoopF fuel now thr low out s k).popped.length) = false ∧
    (clearLoopF fuel now thr low out s k).popped.length
      + (clearLoopF fuel now thr low out s k).storage.queue_remove.length
      = s.queue_remove.length ∧
    (∀ x ∈ (clearLoopF fuel now thr low out s k).deleted, x ∈ queuePaths s) ∧
    (∀ it ∈ (clearLoopF fuel now thr low out s k).storage.queue_remove,
      it ∈ s.queue_remove) := by
  intro fuel
  induction fuel with
  | zero =>
    intro now thr low out s k hinv hlen
    have hq : s.queue_remove = [] := List.length_eq_zero.mp (by omega)
    have hr : clearLoopF 0 now thr low out s k = ⟨s, [], [], [], false⟩ := rfl
    rw [hr]
    refine ⟨rfl, hinv, ?_, by simp, by simp, by simp⟩
    simpa using clearConds_false_of_empty now thr low s (k + 0) hq
  | succ fuel ih =>
    intro now thr low out s k hinv hlen
    cases hc : clearConds now thr low s k with
    | false =>
      rw [clearLoopF_stop (fuel + 1) now thr low out s k hc]
      refine ⟨rfl, hinv, ?_, by simp, by simp, by simp⟩
      simpa using hc
    | true =>
      have hne : s.queue_remove ≠ [] := by
        intro hq
        rw [clearConds_false_of_empty now thr low s k hq] at hc
        simp at hc
      obtain ⟨m, rest, hex, hpop, hinv', hmin, hpri, hlen'⟩ := pop_spec hinv hne
      have hlenrest :
          (⟨rest, s.exist_files.erase m.item.path⟩ : Storage).queue_remove.length ≤ fuel := by
        simp only []
        omega
      obtain ⟨ih1, ih2, ih3, ih4, ih5, ih6⟩ :=
        ih now thr low out ⟨rest, s.exist_files.erase m.item.path⟩ (k + 1) hinv' hlenrest
      have ih4' : (clearLoopF fuel now thr low out
          ⟨rest, s.exist_files.erase m.item.path⟩ (k + 1)).popped.length
          + (clearLoopF fuel now thr low out
          ⟨rest, s.exist_files.erase m.item.path⟩ (k + 1)).storage.queue_remove.length
          = rest.length := ih4
      have hsub : ∀ it ∈ rest, it ∈ s.queue_remove := by
        intro it hit
        exact (extractMin_perm hex).mem_iff.mpr (List.mem_cons_of_mem _ hit)
      have hpathsub :
          ∀ x ∈ queuePaths (⟨rest, s.exist_files.erase m.item.path⟩ : Storage),
            x ∈ queuePaths s := by
        intro x hx
        obtain ⟨it, hit, rfl⟩ := List.mem_map.mp hx
        exact List.mem_map_of_mem _ (hsub it hit)
      have hmempath : m.item.path ∈ queuePaths s :=
        List.mem_map_of_mem _ (extractMin_mem hex)
      cases hout : out k with
      | success =>
        simp only [clearLoopF, hc, if_true, hpop, hout]
        refine ⟨ih1, ih2, ?_, ?_, ?_, ?_⟩
        · simp only [List.length_cons]
          have harith : k + ((clearLoopF fuel now thr low out
              ⟨rest, s.exist_files.erase m.item.path⟩ (k + 1)).popped.length + 1)
              = (k + 1) + (clearLoopF fuel now thr low out
              ⟨rest, s.exist_files.erase m.item.path⟩ (k + 1)).popped.length := by omega
          rw [harith]
          exact ih3
        · simp only [List.length_cons]
          omega
        · intro x hx
          rcases List.mem_cons.mp hx with rfl | hx'
          · exact hmempath
          · exact hpathsub _ (ih5 x hx')
        · intro it hit
          exact hsub it (ih6 it hit)
      | failBefore =>
        simp only [clearLoopF, hc, if_true, hpop, hout]
        refine ⟨ih1, ih2, ?_, ?_, ?_, ?_⟩
        · simp only [List.length_cons]
          have harith : k + ((clearLoopF fuel now thr low out
              ⟨rest, s.exist_files.erase m.item.path⟩ (k + 1)).popped.length + 1)
              = (k + 1) + (clearLoopF fuel now thr low out
              ⟨rest, s.exist_files.erase m.item.path⟩ (k + 1)).popped.length := by omega
          rw [harith]
          exact ih3
        · simp only [List.length_cons]
          omega
        · intro x hx
          exact hpathsub _ (ih5 x hx)
        · intro it hit
          exact hsub it (ih6 it hit)
      | failAtRemove =>
        simp only [clearLoopF, hc, if_true, hpop, hout]
        refine ⟨ih1, ih2, ?_, ?_, ?_, ?_⟩
        · simp only [List.length_cons]
          have harith : k + ((clearLoopF fuel now thr low out
              ⟨rest, s.exist_files.erase m.item.path⟩ (k + 1)).popped.length + 1)
              = (k + 1) + (clearLoopF fuel now thr low out
              ⟨rest, s.exist_files.erase m.item.path⟩ (k + 1)).popped.length := by omega
          rw [harith]
          exact ih3
        · simp only [List.length_cons]
          omega
        · intro x hx
          exact hpathsub _ (ih5 x hx)
        · intro it hit
          exact hsub it (ih6 it hit)

/-! ## C3, C4, C8 -/

/-- C3: `clear` computes the day-count key `now` once at entry (it is the
single `now` parameter threaded unchanged through the loop) and pops records
exactly while all three conditions hold — index non-empty, oldest record at
least `thr` days old relative to `now`, and the free-space query reporting
low space: if the conditions fail at entry nothing is popped and the state
is unchanged; if they hold the oldest record is popped first; when `clear`
returns, the conditions have just failed at the final state; and the run
never pops more than it removes (no re-insertions, no crash). -/
theorem c3_evictor_conditions (now thr : Int) (low : Nat → Bool)
    (out : Nat → ArchOutcome) (s : Storage) (hinv : InvS s) :
    (clear now thr low out s).crashed = false ∧
    (clearConds now thr low s 0 = false →
      clear now thr low out s = ⟨s, [], [], [], false⟩) ∧
    (clearConds now thr low s 0 = true →
      ∃ f s', pop_oldest_file s = PopResult.ok f s' ∧
        (clear now thr low out s).popped.head? = some f) ∧
    clearConds now thr low (clear now thr low out s).storage
      (clear now thr low out s).popped.length = false ∧
    (clear now thr low out s).popped.length
      + (clear now thr low out s).storage.queue_remove.length
      = s.queue_remove.length := by
  obtain ⟨h1, h2, h3, h4, h5, h6⟩ :=
    clearLoopF_spec s.queue_remove.length now thr low out s 0 hinv (le_refl _)
  refine ⟨h1, ?_, ?_, by simpa using h3, h4⟩
  · intro hc
    exact clearLoopF_stop _ now thr low out s 0 hc
  · intro hc
    have hne : s.queue_remove ≠ [] := by
      intro hq
      simp [clearConds, is_empty, hq] at hc
    obtain ⟨m, rest, hex, hpop, _, _, _, hlen'⟩ := pop_spec hinv hne
    refine ⟨m.item, _, hpop, ?_⟩
    unfold clear
    have hL : s.queue_remove.length = rest.length + 1 := by omega
    rw [hL]
    cases hout : out 0 <;> simp [clearLoopF, hc, hpop, hout]

/-- Concrete storage holding `fileA` (older) and `fileB` (younger). -/
def sAB : Storage := [fileA, fileB].foldl insert_file emptyStorage

theorem c3_witness :
    InvS sAB ∧
    (clear 20000 1 (fun _ => true) (fun _ => ArchOutcome.success) sAB).crashed = false ∧
    clearConds 20000 1 (fun _ => true)
      (clear 20000 1 (fun _ => true) (fun _ => ArchOutcome.success) sAB).storage
      (clear 20000 1 (fun _ => true) (fun _ => ArchOutcome.success) sAB).popped.length
      = false :=
  ⟨by decide,
   (c3_evictor_conditions 20000 1 (fun _ => true) (fun _ => ArchOutcome.success) sAB
     (by decide)).1,
   (c3_evictor_conditions 20000 1 (fun _ => true) (fun _ => ArchOutcome.success) sAB
     (by decide)).2.2.2.1⟩

/-- C4: in an eviction iteration whose directory-creation/compression/
deletion block fails, the failure event naming the file is logged, the
source path is not deleted by this `clear` run, the popped record stays out
of the index (it is never re-inserted), and the loop continues with the
popped-out state rather than halting: the remaining iterations are exactly
a run from the post-pop state. -/
theorem c4_failure_continues (fuel : Nat) (now thr : Int) (low : Nat → Bool)
    (out : Nat → ArchOutcome) (s : Storage) (k : Nat) (f : File) (s' : Storage)
    (hinv : InvS s) (hfuel : s.queue_remove.length ≤ fuel + 1)
    (hc : clearConds now thr low s k = true)
    (hp : pop_oldest_file s = PopResult.ok f s')
    (hfail : out k ≠ ArchOutcome.success) :
    ev_archErr f.path ∈ (clearLoopF (fuel + 1) now thr low out s k).log ∧
    f.path ∉ (clearLoopF (fuel + 1) now thr low out s k).deleted ∧
    f.path ∉ queuePaths (clearLoopF (fuel + 1) now thr low out s k).storage ∧
    (clearLoopF (fuel + 1) now thr low out s k).popped
      = f :: (clearLoopF fuel now thr low out s' (k + 1)).popped ∧
    (clearLoopF (fuel + 1) now thr low out s k).storage
      = (clearLoopF fuel now thr low out s' (k + 1)).storage := by
  have hne : s.queue_remove ≠ [] := by
    intro hq
    simp [clearConds, is_empty, hq] at hc
  obtain ⟨m, rest, hex, hpop, hinv', hmin, hpri, hlen'⟩ := pop_spec hinv hne
  rw [hpop] at hp
  cases hp
  obtain ⟨_, _, _, _, hdel, hqsub⟩ :=
    clearLoopF_spec fuel now thr low out ⟨rest, s.exist_files.erase m.item.path⟩
      (k + 1) hinv' (by simp only []; omega)
  have hnotinrest :
      m.item.path ∉ queuePaths (⟨rest, s.exist_files.erase m.item.path⟩ : Storage) := by
    have hnd := hinv.1
    have hperm : (queuePaths s).Perm
        (m.item.path :: rest.map (fun it => it.item.path)) := by
      have := (extractMin_perm hex).map (fun it => it.item.path)
      simpa [queuePaths] using this
    have hnd2 : (m.item.path :: rest.map (fun it => it.item.path)).Nodup :=
      hperm.nodup_iff.mp hnd
    have := (List.nodup_cons.mp hnd2).1
    simpa [queuePaths] using this
  cases hout : out k with
  | success => exact absurd hout hfail
  | failBefore =>
    simp only [clearLoopF, hc, if_true, hpop, hout]
    refine ⟨List.mem_cons_self _ _, ?_, ?_, trivial, trivial⟩
    · intro hmem
      exact hnotinrest (hdel _ hmem)
    · intro hmem
      obtain ⟨it, hit, hpath⟩ := List.mem_map.mp hmem
      apply hnotinrest
      exact hpath ▸ List.mem_map_of_mem _ (hqsub it hit)
  | failAtRemove =>
    simp only [clearLoopF, hc, if_true, hpop, hout]
    refine ⟨List.mem_cons_of_mem _ (List.mem_cons_self _ _), ?_, ?_, trivial, trivial⟩
    · intro hmem
      exact hnotinrest (hdel _ hmem)
    · intro hmem
      obtain ⟨it, hit, hpath⟩ := List.mem_map.mp hmem
      apply hnotinrest
      exact hpath ▸ List.mem_map_of_mem _ (hqsub it hit)

/-- The state after popping `fileA` from `sAB`. -/
def sPopped : Storage :=
  match pop_oldest_file sAB with
  | PopResult.ok _ t => t
  | _ => emptyStorage

theorem c4_witness :
    (InvS sAB ∧ sAB.queue_remove.length ≤ 2 ∧
      clearConds 20000 1 (fun _ => true) sAB 0 = true ∧
      pop_oldest_file sAB = PopResult.ok fileA sPopped ∧
      (fun _ => ArchOutcome.failBefore) 0 ≠ ArchOutcome.success) ∧
    ev_archErr fileA.path ∈
      (clearLoopF 2 20000 1 (fun _ => true) (fun _ => ArchOutcome.failBefore) sAB 0).log ∧
    fileA.path ∉
      (clearLoopF 2 20000 1 (fun _ => true) (fun _ => ArchOutcome.failBefore) sAB 0).deleted :=
  ⟨⟨by decide, by decide, by decide, by decide, by decide⟩,
   (c4_failure_continues 1 20000 1 (fun _ => true) (fun _ => ArchOutcome.failBefore)
     sAB 0 fileA sPopped (by decide) (by decide) (by decide) (by decide) (by decide)).1,
   (c4_failure_continues 1 20000 1 (fun _ => true) (fun _ => ArchOutcome.failBefore)
     sAB 0 fileA sPopped (by decide) (by decide) (by decide) (by decide) (by decide)).2.1⟩

/-- C8 counterexample: a failing eviction iteration emits its failure event
through `logging.info` — i.e. at informational severity, not error severity
(the word `ERROR` appears only in the message text). -/
theorem c8_counterexample :
    (clear 20000 1 (fun _ => true) (fun _ => ArchOutcome.failBefore)
        ([fileA].foldl insert_file emptyStorage)).log
      = [ev_archErr ("/d/2020/01/01/a.txt")] ∧
    (ev_archErr ("/d/2020/01/01/a.txt")).level = LogLevel.info ∧
    LogLevel.info ≠ LogLevel.error := by decide

/-- C8 (amended): every log event the scanner and the evictor emit — the
new-file and archive-success events as well as the permission/IO failure
events — is emitted at informational severity (`logging.info`; failures are
distinguished only by an `ERROR:` prefix inside the message text), and every
event is one of the four message shapes, each embedding the offending
path. -/
theorem c8_log_severities :
    (∀ (fuel : Nat) (s : Storage) (q : List (String × FsNode)) (e : LogEvent),
        e ∈ (updateLoopF fuel s q).log →
        e.level = LogLevel.info ∧ ∃ p, e = ev_detect p ∨ e = ev_scanErr p) ∧
    (∀ (fuel : Nat) (now thr : Int) (low : Nat → Bool) (out : Nat → ArchOutcome)
        (s : Storage) (k : Nat) (e : LogEvent),
        e ∈ (clearLoopF fuel now thr low out s k).log →
        e.level = LogLevel.info ∧ ∃ p, e = ev_archived p ∨ e = ev_archErr p) := by
  constructor
  · intro fuel
    induction fuel with
    | zero =>
      intro s q e hmem
      cases q <;> simp [updateLoopF] at hmem
    | succ fuel ih =>
      intro s q e hmem
      cases q with
      | nil => simp [updateLoopF] at hmem
      | cons x rest =>
        obtain ⟨p, n⟩ := x
        cases n with
        | dir entries =>
          simp only [updateLoopF] at hmem
          exact ih _ _ _ hmem
        | file sz =>
          cases hex : is_file_exist s p with
          | true =>
            simp only [updateLoopF, hex, if_true] at hmem
            exact ih _ _ _ hmem
          | false =>
            cases hpb : parse_born_date p with
            | some d =>
              simp only [updateLoopF, hex, Bool.false_eq_true, if_false, hpb,
                List.mem_cons] at hmem
              rcases hmem with rfl | hmem'
              · exact ⟨rfl, p, Or.inl rfl⟩
              · exact ih _ _ _ hmem'
            | none =>
              simp only [updateLoopF, hex, Bool.false_eq_true, if_false, hpb,
                List.mem_cons] at hmem
              rcases hmem with rfl | hmem'
              · exact ⟨rfl, p, Or.inr rfl⟩
              · exact ih _ _ _ hmem'
  · intro fuel
    induction fuel with
    | zero =>
      intro now thr low out s k e hmem
      simp [clearLoopF] at hmem
    | succ fuel ih =>
      intro now thr low out s k e hmem
      cases hc : clearConds now thr low s k with
      | false =>
        rw [clearLoopF_stop (fuel + 1) now thr low out s k hc] at hmem
        simp at hmem
      | true =>
        cases hp : pop_oldest_file s with
        | empty =>
          simp only [clearLoopF, hc, if_true, hp] at hmem
          simp at hmem
        | keyError =>
          simp only [clearLoopF, hc, if_true, hp] at hmem
          simp at hmem
        | ok f s' =>
          cases hout : out k with
          | success =>
            simp only [clearLoopF, hc, if_true, hp, hout, List.mem_cons] at hmem
            rcases hmem with rfl | hmem'
            · exact ⟨rfl, f.path, Or.inl rfl⟩
            · exact ih now thr low out s' (k + 1) e hmem'
          | failBefore =>
            simp only [clearLoopF, hc, if_true, hp, hout, List.mem_cons] at hmem
            rcases hmem with rfl | hmem'
            · exact ⟨rfl, f.path, Or.inr rfl⟩
            · exact ih now thr low out s' (k + 1) e hmem'
          | failAtRemove =>
            simp only [clearLoopF, hc, if_true, hp, hout, List.mem_cons] at hmem
            rcases hmem with rfl | hmem
            · exact ⟨rfl, f.path, Or.inl rfl⟩
            · rcases hmem with rfl | hmem'
              · exact ⟨rfl, f.path, Or.inr rfl⟩
              · exact ih now thr low out s' (k + 1) e hmem'

theorem c8_witness :
    ev_detect ("2020/01/01/a.txt") ∈
      (updateLoopF 1 emptyStorage [(("2020/01/01/a.txt"), FsNode.file 3)]).log ∧
    (ev_detect ("2020/01/01/a.txt")).level = LogLevel.info ∧
    (∃ p, ev_detect ("2020/01/01/a.txt") = ev_detect p ∨
      ev_detect ("2020/01/01/a.txt") = ev_scanErr p) :=
  ⟨by decide,
   (c8_log_severities.1 1 emptyStorage [(("2020/01/01/a.txt"), FsNode.file 3)]
     (ev_detect ("2020/01/01/a.txt")) (by decide)).1,
   (c8_log_severities.1 1 emptyStorage [(("2020/01/01/a.txt"), FsNode.file 3)]
     (ev_detect ("2020/01/01/a.txt")) (by decide)).2⟩
